import Mathlib

set_option maxHeartbeats 1000000

/-!
Verification development for the MagosMaster chatbot pipeline
(`App.tsx`, `hooks/useTTS.ts`).

Text is modelled as `List Char`.  Each definition is a shallow embedding of
the correspondingly named TypeScript function; the relevant source lines are
cited in the doc comments.  All definitions follow the latest revision of
`useTTS.ts` (the second copy in the file, the one with the tts-finish fix)
and the latest revision of `App.tsx`.
-/

/-! ## Sentence segmenter (useTTS.ts, speakToken / finishSpeaking) -/

/-- The character class `[.?!:]` from the sentence-boundary regex
`/[.?!:\n]\s*$/` in `speakToken` (useTTS.ts line 404).  `'\n'` is handled
separately in `endsSentence` because it is also a whitespace character. -/
def terminalChar (c : Char) : Bool :=
  c = '.' || c = '?' || c = '!' || c = ':'

/-- The test `/[.?!:\n]\s*$/.test(buffer)` from `speakToken`:
the buffer matches when some character of `[.?!:\n]` is followed only by
whitespace up to the end of the buffer.  Computationally: either the maximal
trailing whitespace run contains `'\n'`, or the last non-whitespace
character is one of `. ? ! :`. -/
def endsSentence (s : List Char) : Bool :=
  let r := s.reverse
  (r.takeWhile Char.isWhitespace).contains '\n' ||
    (match r.dropWhile Char.isWhitespace with
     | c :: _ => terminalChar c
     | [] => false)

/-- JavaScript `String.prototype.trim()`: drop whitespace from both ends. -/
def trimChars (s : List Char) : List Char :=
  ((s.dropWhile Char.isWhitespace).reverse.dropWhile Char.isWhitespace).reverse

/-- Erase every whitespace character; used to state "reconstructs the token
stream ignoring the whitespace removed by trimming". -/
def stripWs (s : List Char) : List Char :=
  s.filter (fun c => !c.isWhitespace)

/-- The segmenter state of `useTTS.ts`: `textBuf` is `textBufferRef.current`,
`out` is the list of sentences pushed onto `speakingQueueRef.current`
(in push order). -/
structure SegState where
  textBuf : List Char
  out : List (List Char)
deriving DecidableEq

/-- `speakToken` (useTTS.ts lines 393-429): when TTS is disabled, return
immediately; otherwise append the token to the buffer and, if the buffer
matches the sentence-boundary pattern and its trim is nonempty, push the
trimmed buffer and clear it.  (When the trim is empty the buffer is kept:
the clearing statement is inside the `textToSpeak.length > 0` branch.) -/
def speakToken (enabled : Bool) (st : SegState) (tok : List Char) : SegState :=
  if !enabled then st
  else
    let b := st.textBuf ++ tok
    if endsSentence b then
      let t := trimChars b
      if t.isEmpty then { st with textBuf := b }
      else { textBuf := [], out := st.out ++ [t] }
    else { st with textBuf := b }

/-- `finishSpeaking` (useTTS.ts lines 431-440): flush the residual buffer as
a final sentence when its trim is nonempty and TTS is enabled. -/
def finishSpeaking (enabled : Bool) (st : SegState) : SegState :=
  if !(trimChars st.textBuf).isEmpty && enabled then
    { textBuf := [], out := st.out ++ [trimChars st.textBuf] }
  else st

theorem stripWs_append (a b : List Char) :
    stripWs (a ++ b) = stripWs a ++ stripWs b := by
  simp [stripWs]

theorem stripWs_dropWhile (s : List Char) :
    stripWs (s.dropWhile Char.isWhitespace) = stripWs s := by
  induction s with
  | nil => rfl
  | cons c cs ih =>
    by_cases h : c.isWhitespace
    · simp only [List.dropWhile, h]
      simpa [stripWs, h] using ih
    · simp [List.dropWhile, h]

theorem stripWs_reverse (s : List Char) :
    stripWs s.reverse = (stripWs s).reverse := by
  simp [stripWs]

theorem stripWs_trimChars (s : List Char) :
    stripWs (trimChars s) = stripWs s := by
  simp [trimChars, stripWs_reverse, stripWs_dropWhile]

theorem stripWs_eq_nil_of_trim {s : List Char} (h : trimChars s = []) :
    stripWs s = [] := by
  have hs := stripWs_trimChars s
  rw [h] at hs
  exact hs.symm

/-- The non-whitespace content held by a segmenter state: emitted sentences
followed by the pending buffer. -/
def segContent (st : SegState) : List Char :=
  stripWs (List.flatten st.out ++ st.textBuf)

theorem segContent_speakToken (st : SegState) (tok : List Char) :
    segContent (speakToken true st tok) = segContent st ++ stripWs tok := by
  unfold speakToken segContent
  by_cases h : endsSentence (st.textBuf ++ tok)
  · by_cases h2 : (trimChars (st.textBuf ++ tok)).isEmpty
    · simp [h, h2, stripWs_append]
    · simp [h, h2, stripWs_append, stripWs_trimChars]
  · simp [h, stripWs_append]

theorem segContent_foldl (toks : List (List Char)) (st : SegState) :
    segContent (toks.foldl (speakToken true) st)
      = segContent st ++ stripWs (List.flatten toks) := by
  induction toks generalizing st with
  | nil => simp [stripWs]
  | cons t ts ih =>
    simp [List.foldl_cons, ih, segContent_speakToken, stripWs_append]

theorem out_finishSpeaking (st : SegState) :
    stripWs (List.flatten (finishSpeaking true st).out) = segContent st := by
  unfold finishSpeaking segContent
  by_cases h : (trimChars st.textBuf).isEmpty
  · have h0 : trimChars st.textBuf = [] := by simpa using h
    simp [h, stripWs_append, stripWs_eq_nil_of_trim h0]
  · simp [h, stripWs_append, stripWs_trimChars]

/-- Claim C4: for every finite token stream fed to the sentence segmenter
(`speakToken` with TTS enabled) followed by a single flush
(`finishSpeaking`), concatenating all emitted sentences reconstructs the
concatenated token text exactly, up to the whitespace removed by trimming:
erasing whitespace from both sides yields the same character sequence, so no
token text is dropped and none is duplicated. -/
theorem c4_segmenter_reconstructs_token_stream (toks : List (List Char)) :
    stripWs (List.flatten (finishSpeaking true
        (toks.foldl (speakToken true) ⟨[], []⟩)).out)
      = stripWs (List.flatten toks) := by
  rw [out_finishSpeaking, segContent_foldl]
  simp [segContent, stripWs]

/-! ## Claim C10: speakToken with TTS disabled -/

/-- Claim C10: when TTS is disabled, `speakToken` is a no-op — it leaves the
sentence buffer and the speaking queue unchanged — so tokens fed while
disabled are permanently discarded: enabling TTS afterwards yields exactly
the state obtained by feeding only the later tokens. -/
theorem c10_speakToken_noop_when_disabled :
    (∀ (st : SegState) (tok : List Char), speakToken false st tok = st) ∧
    (∀ toks1 toks2 : List (List Char),
        toks2.foldl (speakToken true) (toks1.foldl (speakToken false) ⟨[], []⟩)
          = toks2.foldl (speakToken true) ⟨[], []⟩) := by
  constructor
  · intro st tok
    simp [speakToken]
  · intro toks1 toks2
    have h : toks1.foldl (speakToken false) (⟨[], []⟩ : SegState) = ⟨[], []⟩ := by
      induction toks1 with
      | nil => rfl
      | cons t ts ih => simpa [speakToken] using ih
    rw [h]

/-! ## Claim C9: the sentence-boundary pattern -/

/-- The boundary character set asserted by claim C9 (Western `. ! ? :`,
line breaks, and CJK `。！？；：`), stated from the spec's words only, to be
compared against the code's pattern. -/
def claimedTerminalChar (c : Char) : Bool :=
  c = '.' || c = '!' || c = '?' || c = ':' || c = '\n' ||
  c = '。' || c = '！' || c = '？' || c = '；' || c = '：'

/-- The trailing-pattern test claim C9 asserts (the claimed character class
followed only by whitespace), structured like `endsSentence`. -/
def claimedBoundary (s : List Char) : Bool :=
  let r := s.reverse
  (r.takeWhile Char.isWhitespace).contains '\n' ||
    (match r.dropWhile Char.isWhitespace with
     | c :: _ => claimedTerminalChar c
     | [] => false)

/-- Counterexample to claim C9 as stated: the buffer `"Hi。"` ends in the
CJK full stop, so the claimed pattern matches, yet the code's segmenter
emits nothing and does not clear the buffer. -/
theorem c9_cjk_not_boundary :
    claimedBoundary ['H', 'i', '。'] = true ∧
    endsSentence ['H', 'i', '。'] = false ∧
    speakToken true ⟨[], []⟩ ['H', 'i', '。'] = ⟨['H', 'i', '。'], []⟩ := by
  refine ⟨by decide, by decide, ?_⟩
  simp [speakToken, endsSentence, terminalChar]

/-- The amended boundary pattern, written as the regex semantics of
`/[.?!:\n]\s*$/`: some decomposition of the buffer ends with one of
`. ? ! : \n` followed only by whitespace. -/
def boundaryMatches (s : List Char) : Prop :=
  ∃ a c w, s = a ++ c :: w ∧
    (c = '.' ∨ c = '?' ∨ c = '!' ∨ c = ':' ∨ c = '\n') ∧
    ∀ x ∈ w, x.isWhitespace = true

theorem takeWhile_append_all (p : Char → Bool) (xs ys : List Char)
    (h : ∀ x ∈ xs, p x = true) :
    (xs ++ ys).takeWhile p = xs ++ ys.takeWhile p := by
  induction xs with
  | nil => simp
  | cons a l ih =>
    have ha : p a = true := h a (by simp)
    simp [List.takeWhile, ha, ih (fun x hx => h x (by simp [hx]))]

theorem dropWhile_append_all (p : Char → Bool) (xs ys : List Char)
    (h : ∀ x ∈ xs, p x = true) :
    (xs ++ ys).dropWhile p = ys.dropWhile p := by
  induction xs with
  | nil => simp
  | cons a l ih =>
    have ha : p a = true := h a (by simp)
    simp [List.dropWhile, ha, ih (fun x hx => h x (by simp [hx]))]

theorem terminalChar_cases {c : Char} (h : terminalChar c = true) :
    c = '.' ∨ c = '?' ∨ c = '!' ∨ c = ':' := by
  simp only [terminalChar, Bool.or_eq_true, decide_eq_true_eq] at h
  tauto

theorem endsSentence_iff_boundaryMatches (s : List Char) :
    endsSentence s = true ↔ boundaryMatches s := by
  constructor
  · intro h
    unfold endsSentence at h
    simp only [Bool.or_eq_true] at h
    set T := s.reverse.takeWhile Char.isWhitespace with hT
    set D := s.reverse.dropWhile Char.isWhitespace with hD
    have hTws : ∀ x ∈ T, x.isWhitespace = true := by
      intro x hx
      exact List.mem_takeWhile_imp (hT ▸ hx)
    have hsplit : T ++ D = s.reverse := List.takeWhile_append_dropWhile _ _
    have h1 : s = D.reverse ++ T.reverse := by
      have h2 := congrArg List.reverse hsplit
      simpa using h2.symm
    rcases h with h | h
    · have hmem : '\n' ∈ T := by
        simpa [List.contains_iff_exists_mem_beq] using h
      obtain ⟨w1, w2, hw⟩ := List.append_of_mem hmem
      have hTrev : T.reverse = w2.reverse ++ '\n' :: w1.reverse := by
        rw [hw]; simp
      rw [hTrev] at h1
      refine ⟨D.reverse ++ w2.reverse, '\n', w1.reverse, ?_, by simp, ?_⟩
      · rw [h1]; simp
      · intro x hx
        refine hTws x ?_
        rw [hw]
        exact List.mem_append_left _ (by simpa using hx)
    · rcases hd : D with _ | ⟨c, rest⟩
      · rw [hd] at h
        simp at h
      · rw [hd] at h
        have hterm : terminalChar c = true := h
        rw [hd] at h1
        refine ⟨rest.reverse, c, T.reverse, by rw [h1]; simp, ?_, ?_⟩
        · rcases terminalChar_cases hterm with h1 | h1 | h1 | h1 <;> simp [h1]
        · intro x hx
          exact hTws x (by simpa using hx)
  · rintro ⟨a, c, w, rfl, hc, hw⟩
    have hwrev : ∀ x ∈ w.reverse, x.isWhitespace = true := by
      intro x hx
      exact hw x (by simpa using hx)
    have hrev : (a ++ c :: w).reverse = w.reverse ++ c :: a.reverse := by
      simp
    unfold endsSentence
    simp only [Bool.or_eq_true, hrev]
    by_cases hcn : c = '\n'
    · subst hcn
      left
      rw [takeWhile_append_all _ _ _ hwrev]
      have : ('\n' :: a.reverse).takeWhile Char.isWhitespace
            = '\n' :: a.reverse.takeWhile Char.isWhitespace := by
        simp [List.takeWhile]
      rw [this]
      simp [List.contains_iff_exists_mem_beq]
    · have hcw : c.isWhitespace = false := by
        rcases hc with h1 | h1 | h1 | h1 | h1 <;> first | (subst h1; decide) | (exact absurd h1 hcn)
      have hterm : terminalChar c = true := by
        rcases hc with h1 | h1 | h1 | h1 | h1 <;> first | (subst h1; decide) | (exact absurd h1 hcn)
      right
      rw [dropWhile_append_all _ _ _ hwrev]
      simp [List.dropWhile, hcw, hterm]

/-- Claim C9 amended: after each token append the segmenter tests the buffer
against the pattern "one of `. ? ! :` or a line break, followed only by
whitespace, at the end of the buffer" (CJK punctuation is not in the
pattern); on a match with a nonempty trim it emits the trimmed buffer and
clears it, and without a match it only accumulates. -/
theorem c9_boundary_pattern_amended :
    (∀ s, endsSentence s = true ↔ boundaryMatches s) ∧
    (∀ (st : SegState) (tok : List Char),
        endsSentence (st.textBuf ++ tok) = true →
        trimChars (st.textBuf ++ tok) ≠ [] →
        speakToken true st tok
          = ⟨[], st.out ++ [trimChars (st.textBuf ++ tok)]⟩) ∧
    (∀ (st : SegState) (tok : List Char),
        endsSentence (st.textBuf ++ tok) = false →
        speakToken true st tok = ⟨st.textBuf ++ tok, st.out⟩) := by
  refine ⟨endsSentence_iff_boundaryMatches, ?_, ?_⟩
  · intro st tok h ht
    have ht' : (trimChars (st.textBuf ++ tok)).isEmpty = false := by
      simpa [List.isEmpty_iff] using ht
    simp [speakToken, h, ht']
  · intro st tok h
    simp [speakToken, h]

/-- Witness for the amended C9 theorem at the concrete buffer `"Ok."`. -/
theorem c9_witness :
    speakToken true ⟨[], []⟩ ['O', 'k', '.'] = ⟨[], [['O', 'k', '.']]⟩ := by
  have h := c9_boundary_pattern_amended.2.1 ⟨[], []⟩ ['O', 'k', '.']
    (by decide) (by decide)
  simpa using h

/-! ## Speech queue (useTTS.ts, processQueue and the TTS event listeners)

The queue machinery is modelled as a state plus an event step function.
`queue` is `speakingQueueRef.current`, `processing` is
`isProcessingRef.current`, `active` is the (ghost) list of utterances handed
to the synthesis engine and not yet finished or cancelled, `spoken` is the
log of Tts.speak calls in call order, `enqLog` is the log of enqueued
sentences in push order, and `retries` counts pending
`setTimeout(processQueue, 100)` retry timers scheduled by the error path. -/

structure QState where
  queue : List (List Char)
  processing : Bool
  active : List (List Char)
  spoken : List (List Char)
  enqLog : List (List Char)
  retries : Nat
deriving DecidableEq

def qInit : QState := ⟨[], false, [], [], [], 0⟩

/-- `processQueue` (useTTS.ts lines 362-391, final revision): return if the
lock is held or the queue is empty; otherwise take the lock and shift the
head.  If the text is nonempty, call `Tts.speak`: on success (`ok = true`)
the lock stays held until the tts-finish event; on failure the catch block
releases the lock and schedules a deferred retry.  An empty text only
releases the lock. -/
def processQueueF (ok : Bool) (s : QState) : QState :=
  if s.processing then s
  else
    match s.queue with
    | [] => s
    | t :: rest =>
      if t.isEmpty then { s with queue := rest, processing := false }
      else if ok then
        { s with queue := rest, processing := true,
                 active := s.active ++ [t], spoken := s.spoken ++ [t] }
      else { s with queue := rest, processing := false,
                    retries := s.retries + 1 }

/-- Events of the queue system.  `enq` is a push by `speakToken` or
`finishSpeaking` followed by their `processQueue` call; `finish` is the
tts-finish listener (reset the lock, then `processQueue`); `cancel` is the
tts-cancel listener (reset the lock only); `timer` is a deferred retry from
the error path firing.  The `ok` argument is the outcome of the `Tts.speak`
call the event may perform. -/
inductive QEv where
  | enq (t : List Char) (ok : Bool)
  | finish (ok : Bool)
  | cancel
  | timer (ok : Bool)
deriving DecidableEq

def qStep (s : QState) (e : QEv) : QState :=
  match e with
  | .enq t ok =>
      processQueueF ok
        { s with queue := s.queue ++ [t], enqLog := s.enqLog ++ [t] }
  | .finish ok =>
      if s.active.isEmpty then s
      else processQueueF ok { s with active := s.active.drop 1, processing := false }
  | .cancel => { s with active := [], processing := false }
  | .timer ok =>
      if s.retries = 0 then s
      else processQueueF ok { s with retries := s.retries - 1 }

/-- Events in a failure-free run: nonempty sentences enqueued (the app only
enqueues trimmed nonempty sentences), successful speak calls, finish and
cancel signals. -/
def fifoEv : QEv → Bool
  | .enq t ok => ok && !t.isEmpty
  | .finish ok => ok
  | .cancel => true
  | .timer _ => false

/-- The C2 invariant: the enqueue log splits into the spoken log followed by
the waiting queue (hence sentences are spoken in strict FIFO enqueue order
and none twice), queue entries are nonempty, at most one utterance is in
flight, and the lock is held exactly while an utterance is in flight. -/
def Inv2 (s : QState) : Prop :=
  s.enqLog = s.spoken ++ s.queue ∧
  (∀ t ∈ s.queue, t.isEmpty = false) ∧
  s.active.length ≤ 1 ∧
  s.processing = !s.active.isEmpty

theorem inv2_processQueueF_true {s : QState} (h : Inv2 s) :
    Inv2 (processQueueF true s) := by
  obtain ⟨h1, h2, h3, h4⟩ := h
  unfold processQueueF
  by_cases hp : s.processing
  · simp only [hp, if_true]
    exact ⟨h1, h2, h3, h4⟩
  · simp only [hp, if_false]
    rcases hq : s.queue with _ | ⟨t, rest⟩
    · exact ⟨h1, h2, h3, h4⟩
    · have ht : t.isEmpty = false := h2 t (by rw [hq]; simp)
      have hp' : s.processing = false := by simpa using hp
      have hact : s.active = [] := by
        rw [hp'] at h4
        simpa [List.isEmpty_iff] using h4.symm
      simp only [ht, Bool.false_eq_true, if_false, if_true]
      refine ⟨?_, ?_, ?_, ?_⟩
      · rw [h1, hq]; simp
      · intro u hu
        exact h2 u (by rw [hq]; simp [hu])
      · simp [hact]
      · simp [hact]

theorem inv2_step {s : QState} {e : QEv} (h : Inv2 s) (he : fifoEv e = true) :
    Inv2 (qStep s e) := by
  obtain ⟨h1, h2, h3, h4⟩ := h
  match e with
  | .enq t ok =>
    have hok : ok = true := by
      simp [fifoEv, Bool.and_eq_true] at he
      exact he.1
    have ht : t.isEmpty = false := by
      simp [fifoEv, Bool.and_eq_true] at he
      simpa using he.2
    subst hok
    apply inv2_processQueueF_true
    refine ⟨by simp [h1], ?_, h3, h4⟩
    intro u hu
    rcases List.mem_append.mp hu with hu | hu
    · exact h2 u hu
    · simp at hu
      subst hu
      exact ht
  | .finish ok =>
    have hok : ok = true := by simpa [fifoEv] using he
    subst hok
    show Inv2 (if s.active.isEmpty then s
      else processQueueF true { s with active := s.active.drop 1, processing := false })
    by_cases ha : s.active.isEmpty
    · rw [if_pos ha]
      exact ⟨h1, h2, h3, h4⟩
    · rw [if_neg ha]
      apply inv2_processQueueF_true
      refine ⟨h1, h2, ?_, ?_⟩
      · calc (s.active.drop 1).length ≤ s.active.length := by
              simp [List.length_drop]
          _ ≤ 1 := h3
      · rcases hA : s.active with _ | ⟨a, arest⟩
        · rw [hA] at ha; simp at ha
        · have harest : arest = [] := by
            rw [hA] at h3
            simpa using h3
          simp [hA, harest]
  | .cancel =>
    refine ⟨h1, h2, ?_, rfl⟩
    show ([] : List (List Char)).length ≤ 1
    decide
  | .timer ok => simp [fifoEv] at he

theorem inv2_run (evs : List QEv) (s : QState) (hs : Inv2 s)
    (h : ∀ e ∈ evs, fifoEv e = true) :
    Inv2 (evs.foldl qStep s) := by
  induction evs generalizing s with
  | nil => exact hs
  | cons e es ih =>
    exact ih (qStep s e) (inv2_step hs (h e (by simp)))
      (fun x hx => h x (by simp [hx]))

/-- Claim C2: in every failure-free run of the speech queue, sentences are
spoken in strict FIFO enqueue order, no sentence entry is spoken twice, at
most one sentence is being synthesized at any time, and the processing lock
is held exactly from dequeue until the finish/cancel event of that
utterance. -/
theorem c2_speech_queue_fifo_single_consumer (evs : List QEv)
    (h : ∀ e ∈ evs, fifoEv e = true) :
    Inv2 (evs.foldl qStep qInit) := by
  refine inv2_run evs qInit ⟨rfl, ?_, by simp [qInit], rfl⟩ h
  intro t ht
  simp [qInit] at ht

/-- Witness for C2: three sentences enqueued while idle and then spoken to
completion. -/
theorem c2_witness :
    Inv2 ([QEv.enq ['A'] true, QEv.enq ['B'] true, QEv.enq ['C'] true,
           QEv.finish true, QEv.finish true,
           QEv.finish true].foldl qStep qInit) :=
  c2_speech_queue_fifo_single_consumer _ (by decide)

/-- Events in a run that may contain speak failures: nonempty sentences
enqueued, finish signals, retry timers; any speak outcome.  (tts-cancel is
only fired by the drain paths treated in C1.) -/
def recEv : QEv → Bool
  | .enq t _ => !t.isEmpty
  | .finish _ => true
  | .cancel => false
  | .timer _ => true

/-- The C3 invariant: queue entries are nonempty, at most one utterance is
in flight, the lock is held exactly while an utterance is in flight (so a
speak failure, which leaves no utterance in flight, leaves the lock
released, and the lock is never double-released for one utterance), and a
nonempty queue always has either the lock held (its holder's finish event
will continue the chain) or a pending retry timer — the queue never
deadlocks after a failure. -/
def Inv3 (s : QState) : Prop :=
  (∀ t ∈ s.queue, t.isEmpty = false) ∧
  s.active.length ≤ 1 ∧
  s.processing = !s.active.isEmpty ∧
  (s.queue ≠ [] → s.processing = true ∨ 0 < s.retries)

theorem inv3_processQueueF (ok : Bool) (s : QState)
    (h1 : ∀ t ∈ s.queue, t.isEmpty = false)
    (h2 : s.active.length ≤ 1)
    (h3 : s.processing = !s.active.isEmpty) :
    Inv3 (processQueueF ok s) := by
  unfold processQueueF
  by_cases hp : s.processing
  · simp only [hp, if_true]
    exact ⟨h1, h2, h3, fun _ => Or.inl hp⟩
  · simp only [hp, if_false]
    rcases hq : s.queue with _ | ⟨t, rest⟩
    · exact ⟨h1, h2, h3, fun hne => absurd hq hne⟩
    · have ht : t.isEmpty = false := h1 t (by rw [hq]; simp)
      have hp' : s.processing = false := by simpa using hp
      have hact : s.active = [] := by
        rw [hp'] at h3
        simpa [List.isEmpty_iff] using h3.symm
      simp only [ht, Bool.false_eq_true, if_false]
      have hrest : ∀ u ∈ rest, u.isEmpty = false := by
        intro u hu
        exact h1 u (by rw [hq]; simp [hu])
      rcases ok with _ | _
      · simp only [Bool.false_eq_true, if_false]
        exact ⟨hrest, by simp [hact], by simp [hact],
          fun _ => Or.inr (by simp)⟩
      · rw [if_pos rfl]
        exact ⟨hrest, by simp [hact], by simp [hact], fun _ => Or.inl rfl⟩

theorem inv3_step {s : QState} {e : QEv} (h : Inv3 s) (he : recEv e = true) :
    Inv3 (qStep s e) := by
  obtain ⟨h1, h2, h3, h4⟩ := h
  match e with
  | .enq t ok =>
    have ht : t.isEmpty = false := by simpa [recEv] using he
    apply inv3_processQueueF
    · intro u hu
      rcases List.mem_append.mp hu with hu | hu
      · exact h1 u hu
      · simp at hu
        subst hu
        exact ht
    · exact h2
    · exact h3
  | .finish ok =>
    show Inv3 (if s.active.isEmpty then s
      else processQueueF ok { s with active := s.active.drop 1, processing := false })
    by_cases ha : s.active.isEmpty
    · rw [if_pos ha]
      exact ⟨h1, h2, h3, h4⟩
    · rw [if_neg ha]
      apply inv3_processQueueF
      · exact h1
      · calc (s.active.drop 1).length ≤ s.active.length := by
              simp [List.length_drop]
          _ ≤ 1 := h2
      · rcases hA : s.active with _ | ⟨a, arest⟩
        · rw [hA] at ha; simp at ha
        · have harest : arest = [] := by
            rw [hA] at h2
            simpa using h2
          simp [hA, harest]
  | .cancel => simp [recEv] at he
  | .timer ok =>
    show Inv3 (if s.retries = 0 then s
      else processQueueF ok { s with retries := s.retries - 1 })
    by_cases hr : s.retries = 0
    · rw [if_pos hr]
      exact ⟨h1, h2, h3, h4⟩
    · rw [if_neg hr]
      exact inv3_processQueueF ok _ h1 h2 h3

theorem inv3_run (evs : List QEv) (s : QState) (hs : Inv3 s)
    (h : ∀ e ∈ evs, recEv e = true) :
    Inv3 (evs.foldl qStep s) := by
  induction evs generalizing s with
  | nil => exact hs
  | cons e es ih =>
    exact ih (qStep s e) (inv3_step hs (h e (by simp)))
      (fun x hx => h x (by simp [hx]))

/-- Claim C3: whenever the `Tts.speak` call fails for a dequeued sentence,
`processQueue` releases the busy lock exactly once, leaves everything else
(spoken log, in-flight set, enqueue log) untouched — in particular no error
is recorded anywhere, the catch block only logs — and schedules a retry
timer; and in every run with failures the queue never deadlocks: a nonempty
queue always has the lock held by an in-flight utterance or a pending retry
that will dequeue the next entry. -/
theorem c3_speak_failure_releases_lock_and_retries :
    (∀ (s : QState) (t : List Char) (rest : List (List Char)),
        s.processing = false → s.queue = t :: rest → t.isEmpty = false →
        processQueueF false s =
          { s with queue := rest, retries := s.retries + 1 }) ∧
    (∀ evs : List QEv, (∀ e ∈ evs, recEv e = true) →
        Inv3 (evs.foldl qStep qInit)) := by
  constructor
  · intro s t rest hp hq ht
    unfold processQueueF
    rw [hq]
    simp [hp, ht]
  · intro evs h
    refine inv3_run evs qInit ⟨?_, by simp [qInit], rfl, by simp [qInit]⟩ h
    intro t ht
    simp [qInit] at ht

/-- Witness for C3: a concrete failing speak call releases the lock and
schedules a retry, and a concrete run with a failure satisfies the
no-deadlock invariant. -/
theorem c3_witness :
    processQueueF false ⟨[['A'], ['B']], false, [], [], [['A'], ['B']], 0⟩
        = ⟨[['B']], false, [], [], [['A'], ['B']], 1⟩ ∧
    Inv3 ([QEv.enq ['A'] false, QEv.timer true,
           QEv.finish true].foldl qStep qInit) := by
  constructor
  · exact c3_speak_failure_releases_lock_and_retries.1
      ⟨[['A'], ['B']], false, [], [], [['A'], ['B']], 0⟩ ['A'] [['B']]
      rfl rfl rfl
  · exact c3_speak_failure_releases_lock_and_retries.2 _ (by decide)

/-! ## Engine lifecycle state machine (App.tsx, appState)

`AState` is the `AppState` union of App.tsx line 38; the claim's mapping is
checking = CheckingAssets, downloading = Downloading, loading_model =
InitializingEngine, ready = Ready, error = Failed. -/

inductive AState where
  | checking
  | downloading
  | loading_model
  | ready
  | error
deriving DecidableEq

/-- The transitions of `appState` performed by the code:
`setupModels` (App.tsx 174-250) sets checking, then downloading (once per
missing asset, hence the downloading self-loop for the second download),
then loading_model, or error from its catch;
`loadAI` (App.tsx 287-331), run from the loading_model effect (283-285),
sets ready or error;
the ErrorScreen retry button (474) re-runs `setupModels`, whose first
statement sets checking;
`handleClearCache` (259-281), reachable only from the ready UI, sets
checking and re-runs `setupModels`. -/
def appStep : AState → AState → Bool
  | .checking, .downloading => true
  | .checking, .loading_model => true
  | .checking, .error => true
  | .downloading, .downloading => true
  | .downloading, .loading_model => true
  | .downloading, .error => true
  | .loading_model, .ready => true
  | .loading_model, .error => true
  | .error, .checking => true
  | .ready, .checking => true
  | _, _ => false

/-- A list of states is a chain when every adjacent pair is a code
transition. -/
def chainOK : List AState → Bool
  | [] => true
  | [_] => true
  | a :: b :: r => appStep a b && chainOK (b :: r)

theorem ready_preceded (a : AState) (l : List AState)
    (hc : chainOK (a :: l) = true) (ha : a ≠ AState.ready)
    (hm : AState.ready ∈ l) : AState.loading_model ∈ a :: l := by
  induction l generalizing a with
  | nil => simp at hm
  | cons b r ih =>
    have h1 : appStep a b = true ∧ chainOK (b :: r) = true := by
      simpa [chainOK, Bool.and_eq_true] using hc
    by_cases hb : b = AState.ready
    · subst hb
      have haa : a = AState.loading_model := by
        cases a <;> simp_all [appStep]
      simp [haa]
    · rcases List.mem_cons.mp hm with hbm | hm'
      · exact absurd hbm.symm hb
      · have hrec := ih b h1.2 hb hm'
        rcases List.mem_cons.mp hrec with hb2 | hr2
        · simp [hb2]
        · simp [List.mem_cons]
          tauto

/-- Claim C5: the only transition into ready comes from loading_model
(InitializingEngine), error (Failed) is reachable in one step from every
non-terminal state, the only transition out of error goes to checking
(retry restarts at the asset check), every chain from error that reaches
ready passes through checking, and every chain whose start is not ready
that reaches ready passes through loading_model. -/
theorem c5_engine_lifecycle_structure :
    (∀ s, appStep s AState.ready = (s == AState.loading_model)) ∧
    (appStep AState.checking AState.error = true ∧
     appStep AState.downloading AState.error = true ∧
     appStep AState.loading_model AState.error = true) ∧
    (∀ s, appStep AState.error s = (s == AState.checking)) ∧
    (∀ l, chainOK (AState.error :: l) = true → AState.ready ∈ l →
        AState.checking ∈ l) ∧
    (∀ a l, chainOK (a :: l) = true → a ≠ AState.ready →
        AState.ready ∈ l → AState.loading_model ∈ a :: l) := by
  refine ⟨fun s => by cases s <;> rfl, by decide, fun s => by cases s <;> rfl,
    ?_, ready_preceded⟩
  intro l hc hm
  rcases l with _ | ⟨b, r⟩
  · simp at hm
  · have h1 : appStep AState.error b = true := by
      simp [chainOK, Bool.and_eq_true] at hc
      exact hc.1
    have hb : b = AState.checking := by
      cases b <;> simp_all [appStep]
    simp [hb]

/-- Witness for C5 at the concrete chain error → checking → loading_model →
ready. -/
theorem c5_witness :
    AState.checking ∈ [AState.checking, AState.loading_model, AState.ready] ∧
    AState.loading_model ∈ AState.checking ::
      [AState.loading_model, AState.ready] :=
  ⟨c5_engine_lifecycle_structure.2.2.2.1
      [AState.checking, AState.loading_model, AState.ready]
      (by decide) (by decide),
   c5_engine_lifecycle_structure.2.2.2.2 AState.checking
      [AState.loading_model, AState.ready]
      (by decide) (by decide) (by decide)⟩

/-! ## Engine initialization (App.tsx, loadAI) and the timeout race -/

/-- The outcome of an awaited native construction as observed by the
awaiting code: it resolves, rejects, or never settles. -/
inductive InitOutcome where
  | ok
  | fail
  | pending
deriving DecidableEq

/-- The outcome of `Promise.race([initLlama(...), 30s timeout])`
(App.tsx 306-315): because the race includes the rejection timer, this await
always settles — there is no pending case. -/
inductive RaceOutcome where
  | initOk
  | initFail
  | timedOut
deriving DecidableEq

/-- `loadAI` (App.tsx 287-331) as the sequence of `setAppState` calls it
performs.  The Whisper construction (`initWhisper`, line 293) is a bare
await with no timeout, so it can leave `loadAI` suspended forever (result
`[]`: no further state transition, the app stays in loading_model).  The
Llama construction is raced against a 30-second rejection timer, so it
always settles; any rejection is rethrown and caught by the outer catch,
which sets error. -/
def loadAIStates (w : InitOutcome) (l : RaceOutcome) : List AState :=
  match w with
  | .pending => []
  | .fail => [AState.error]
  | .ok =>
    match l with
    | .initOk => [AState.ready]
    | .initFail => [AState.error]
    | .timedOut => [AState.error]

/-- Counterexample to claim C6 as stated: not every native engine
construction performed during InitializingEngine is raced against a
timeout.  With the Whisper construction hanging, `loadAI` performs no state
transition at all — it remains in loading_model forever instead of
reaching error — refuting the universally quantified claim. -/
theorem c6_whisper_init_not_raced :
    loadAIStates InitOutcome.pending RaceOutcome.initOk = [] ∧
    ¬ (∀ w l, loadAIStates w l ≠ []) := by
  constructor
  · rfl
  · intro h
    exact h InitOutcome.pending RaceOutcome.initOk rfl

/-- Claim C6 amended: the Llama engine construction is raced against a
30-second timeout and always settles — if the timeout elapses first the
lifecycle transitions to error (Failed) — while the Whisper construction is
not raced (see the counterexample). -/
theorem c6_llama_init_race_timeout :
    loadAIStates InitOutcome.ok RaceOutcome.timedOut = [AState.error] ∧
    loadAIStates InitOutcome.ok RaceOutcome.initFail = [AState.error] ∧
    loadAIStates InitOutcome.ok RaceOutcome.initOk = [AState.ready] ∧
    loadAIStates InitOutcome.fail RaceOutcome.initOk = [AState.error] ∧
    (∀ l, loadAIStates InitOutcome.ok l ≠ []) := by
  refine ⟨rfl, rfl, rfl, rfl, ?_⟩
  intro l
  cases l <;> simp [loadAIStates]

/-! ## Asset provisioning (App.tsx, setupModels)

`RNFS.exists` only checks existence of the path, so the disk model records
for each model path whether a file is there and whether it is a complete or
a truncated (partially downloaded) file; both answer `exists = true`.
A failed `RNFS.downloadFile` leaves the bytes written so far at `toFile`,
modelled as a truncated file. -/

inductive FileData where
  | full
  | truncated
deriving DecidableEq

structure Disk where
  whisper : Option FileData
  llama : Option FileData
deriving DecidableEq

inductive Asset where
  | whisper
  | llama
deriving DecidableEq

/-- The observable behaviour of one `RNFS.downloadFile` call: whether its
promise resolves, the content length the server reports, and the
`bytesWritten` values of its progress ticks. -/
structure DlOutcome where
  ok : Bool
  contentLength : Nat
  ticks : List Nat
deriving DecidableEq

/-- The result of one `setupModels` run: the `setAppState` calls in order,
the final disk, which downloads were started, which progress callbacks
updated the progress bar (the callback body is guarded by
`res.contentLength > 0`, App.tsx 191/224), and which paths were deleted
(`setupModels` never calls `RNFS.unlink`; only `handleClearCache` does). -/
structure SetupResult where
  states : List AState
  disk : Disk
  started : List Asset
  events : List (Asset × Nat)
  unlinked : List Asset
deriving DecidableEq

/-- `RNFS.exists`: true for complete and truncated files alike. -/
def rnfsExists (f : Option FileData) : Bool := f.isSome

def progressEvents (a : Asset) (o : DlOutcome) : List (Asset × Nat) :=
  if 0 < o.contentLength then o.ticks.map (fun n => (a, n)) else []

/-- `setupModels` (App.tsx 174-250): set checking; if the Whisper path does
not exist, set downloading and download it (on rejection the catch sets
error and stops); then the same for the Llama path; finally set
loading_model. -/
def setupModels (d : Disk) (wo lo : DlOutcome) : SetupResult :=
  if rnfsExists d.whisper then
    if rnfsExists d.llama then
      ⟨[AState.checking, AState.loading_model], d, [], [], []⟩
    else if lo.ok then
      ⟨[AState.checking, AState.downloading, AState.loading_model],
        { d with llama := some FileData.full },
        [Asset.llama], progressEvents Asset.llama lo, []⟩
    else
      ⟨[AState.checking, AState.downloading, AState.error],
        { d with llama := some FileData.truncated },
        [Asset.llama], progressEvents Asset.llama lo, []⟩
  else if wo.ok then
    if rnfsExists d.llama then
      ⟨[AState.checking, AState.downloading, AState.loading_model],
        { d with whisper := some FileData.full },
        [Asset.whisper], progressEvents Asset.whisper wo, []⟩
    else if lo.ok then
      ⟨[AState.checking, AState.downloading, AState.downloading,
          AState.loading_model],
        ⟨some FileData.full, some FileData.full⟩,
        [Asset.whisper, Asset.llama],
        progressEvents Asset.whisper wo ++ progressEvents Asset.llama lo, []⟩
    else
      ⟨[AState.checking, AState.downloading, AState.downloading,
          AState.error],
        ⟨some FileData.full, some FileData.truncated⟩,
        [Asset.whisper, Asset.llama],
        progressEvents Asset.whisper wo ++ progressEvents Asset.llama lo, []⟩
  else
    ⟨[AState.checking, AState.downloading, AState.error],
      { d with whisper := some FileData.truncated },
      [Asset.whisper], progressEvents Asset.whisper wo, []⟩

theorem progressEvents_fst {a : Asset} {o : DlOutcome} {p : Asset × Nat}
    (hp : p ∈ progressEvents a o) : p.1 = a := by
  unfold progressEvents at hp
  by_cases h : 0 < o.contentLength
  · rw [if_pos h] at hp
    simp only [List.mem_map] at hp
    obtain ⟨n, _, rfl⟩ := hp
    rfl
  · rw [if_neg h] at hp
    simp at hp

/-- Claim C7: `ensure` is idempotent — for each model asset whose path
already exists on disk, `setupModels` starts no download for it, emits no
progress event for it, and leaves the file unchanged. -/
theorem c7_ensure_idempotent_when_present (d : Disk) (wo lo : DlOutcome) :
    (∀ f, d.whisper = some f →
        Asset.whisper ∉ (setupModels d wo lo).started ∧
        (∀ p ∈ (setupModels d wo lo).events, p.1 ≠ Asset.whisper) ∧
        (setupModels d wo lo).disk.whisper = some f) ∧
    (∀ f, d.llama = some f →
        Asset.llama ∉ (setupModels d wo lo).started ∧
        (∀ p ∈ (setupModels d wo lo).events, p.1 ≠ Asset.llama) ∧
        (setupModels d wo lo).disk.llama = some f) := by
  constructor
  · intro f hf
    have hw : rnfsExists d.whisper = true := by simp [rnfsExists, hf]
    unfold setupModels
    rw [if_pos hw]
    by_cases hl : rnfsExists d.llama
    · rw [if_pos hl]
      refine ⟨by simp, ?_, hf⟩
      intro p hp
      simp at hp
    · rw [if_neg hl]
      by_cases hok : lo.ok
      · rw [if_pos hok]
        refine ⟨by simp, ?_, hf⟩
        intro p hp
        rw [progressEvents_fst hp]
        simp
      · rw [if_neg hok]
        refine ⟨by simp, ?_, hf⟩
        intro p hp
        rw [progressEvents_fst hp]
        simp
  · intro f hf
    have hl : rnfsExists d.llama = true := by simp [rnfsExists, hf]
    unfold setupModels
    by_cases hw : rnfsExists d.whisper
    · rw [if_pos hw, if_pos hl]
      refine ⟨by simp, ?_, hf⟩
      intro p hp
      simp at hp
    · rw [if_neg hw]
      by_cases hok : wo.ok
      · rw [if_pos hok, if_pos hl]
        refine ⟨by simp, ?_, hf⟩
        intro p hp
        rw [progressEvents_fst hp]
        simp
      · rw [if_neg hok]
        refine ⟨by simp, ?_, hf⟩
        intro p hp
        rw [progressEvents_fst hp]
        simp

/-- Witness for C7: both model files present — nothing downloaded, no
events, disk unchanged. -/
theorem c7_witness :
    Asset.whisper ∉ (setupModels ⟨some FileData.full, some FileData.full⟩
        ⟨true, 5, [5]⟩ ⟨true, 5, [5]⟩).started ∧
    (setupModels ⟨some FileData.full, some FileData.full⟩
        ⟨true, 5, [5]⟩ ⟨true, 5, [5]⟩).disk.llama = some FileData.full := by
  have h := c7_ensure_idempotent_when_present
    ⟨some FileData.full, some FileData.full⟩ ⟨true, 5, [5]⟩ ⟨true, 5, [5]⟩
  exact ⟨(h.1 FileData.full rfl).1, (h.2 FileData.full rfl).2.2⟩

/-- Claim C8 (code bug evidence): after a failed Llama download left a
truncated file, the user-triggered retry re-runs `setupModels`, which sees
`RNFS.exists` answer true for the truncated file, starts no download,
deletes nothing, emits no event, leaves the truncated file in place, and
proceeds to loading_model — the partial file is silently reused as an
already-present asset. -/
theorem c8_partial_file_silently_reused :
    setupModels ⟨some FileData.full, some FileData.truncated⟩
        ⟨true, 1000, [1000]⟩ ⟨true, 1000, [1000]⟩
      = ⟨[AState.checking, AState.loading_model],
         ⟨some FileData.full, some FileData.truncated⟩, [], [], []⟩ := by
  rfl

/-! ## The send/stop/speak pipeline (App.tsx handleSend, handleStop, the
audio queue worker, and useTTS)

Events model the interleaved asynchronous callbacks of the single event
loop.  Queue entries carry a ghost session tag recording which generation
session produced them; the tag exists only in the model, the code stores
bare strings.  TTS is taken as enabled throughout. -/

def leadsWith : List Char → List Char → Bool
  | [], _ => true
  | _ :: _, [] => false
  | p :: ps, c :: cs => p == c && leadsWith ps cs

/-- `String.prototype.includes` / `match` on a fixed literal: `pat` occurs
contiguously in the text. -/
def hasSub (pat : List Char) : List Char → Bool
  | [] => pat.isEmpty
  | c :: cs => leadsWith pat (c :: cs) || hasSub pat cs

/-- `completed.match(/System:|User:|Assistant:/)` (App.tsx 431). -/
def containsRole (c : List Char) : Bool :=
  hasSub ("System:".toList) c || hasSub ("User:".toList) c ||
  hasSub ("Assistant:".toList) c

/-- `/[.!?]/.test(token)` (App.tsx 429): the token contains a terminal
punctuation character anywhere. -/
def tokenHasPunct (t : List Char) : Bool :=
  t.any (fun c => c = '.' || c = '!' || c = '?')

/-- Pipeline state.  `cur` is the ghost id of the most recent session
(incremented on each send), `gen` is the `isGenerating` flag as the
handlers read it, `engGen` is true while the native engine is producing
tokens for the current session, `sendAlive` is true while the current
`handleSend` invocation has not yet run its post-completion continuation,
`buf` is that invocation's local `sentenceBuffer`, `pend` holds a previous
invocation (session id, residual buffer) whose continuation is still
pending, `ttsQueue` is `ttsQueue.current` with ghost tags, `ttsBusy` is
`isTtsBusy`, and `textBuf`/`owner`/`sQueue`/`processing`/`spoken` are the
useTTS side (`owner` is the ghost tag of the text accumulated in
`textBufferRef`). -/
structure PipeState where
  cur : Nat
  gen : Bool
  engGen : Bool
  sendAlive : Bool
  buf : List Char
  pend : Option (Nat × List Char)
  ttsQueue : List (Nat × List Char)
  ttsBusy : Bool
  textBuf : List Char
  owner : Option Nat
  sQueue : List (Nat × List Char)
  processing : Bool
  spoken : List (Nat × List Char)
deriving DecidableEq

def pInit : PipeState :=
  ⟨0, false, false, false, [], none, [], false, [], none, [], false, []⟩

/-- useTTS `processQueue`, success path, within the pipeline model: if the
lock is free and the speaking queue nonempty, take the lock, shift the
head, and hand it to the synthesis engine (recorded in `spoken`). -/
def ttsProcess (s : PipeState) : PipeState :=
  if s.processing then s
  else
    match s.sQueue with
    | [] => s
    | (m, u) :: rest =>
        { s with sQueue := rest, processing := true,
                 spoken := s.spoken ++ [(m, u)] }

/-- useTTS `speakToken` applied to a sentence `t` (tagged `n`) dequeued from
the app-level queue by the worker. -/
def speakTokenPipe (s : PipeState) (n : Nat) (t : List Char) : PipeState :=
  let b := s.textBuf ++ t
  let own := s.owner.getD n
  if endsSentence b then
    if (trimChars b).isEmpty then { s with textBuf := b, owner := some own }
    else
      ttsProcess { s with textBuf := [], owner := none,
                          sQueue := s.sQueue ++ [(own, trimChars b)] }
  else { s with textBuf := b, owner := some own }

/-- useTTS `finishSpeaking` within the pipeline, flushing on behalf of
session `n`. -/
def flushPipe (s : PipeState) (n : Nat) : PipeState :=
  if (trimChars s.textBuf).isEmpty then s
  else
    ttsProcess { s with textBuf := [], owner := none,
                        sQueue := s.sQueue ++ [(s.owner.getD n, trimChars s.textBuf)] }

/-- Pipeline events: `send` is a `handleSend` entry up to the `completion`
call (App.tsx 367-397); `tok` is the token callback (403-436); `contRunCur`
is the current invocation's completion continuation, lines 439-450 ("Handle
any remaining text", `finishSpeaking`, the `finally`); `contRunOld` is the
same continuation for a previous invocation running late; `stopDrain` is
`handleStop` after `await stopCompletion()` resolves (453-461); `worker` is
the audio queue effect (144-162); `busyDone` its release timer; `ttsFinish`
the tts-finish listener. -/
inductive PEvent where
  | send
  | tok (t : List Char)
  | contRunCur
  | contRunOld
  | stopDrain
  | worker
  | busyDone
  | ttsFinish
deriving DecidableEq

def pStep (s : PipeState) (e : PEvent) : PipeState :=
  match e with
  | .send =>
      if s.gen then s
      else if s.sendAlive && s.pend.isSome then s
      else
        { s with
          ttsQueue := [], ttsBusy := false,
          textBuf := [], owner := none, sQueue := [], processing := false,
          pend := if s.sendAlive then some (s.cur, s.buf) else s.pend,
          cur := s.cur + 1, gen := true, engGen := true, sendAlive := true,
          buf := [] }
  | .tok t =>
      if !s.engGen then s
      else
        let b := s.buf ++ t
        if tokenHasPunct t then
          if !(trimChars b).isEmpty && !containsRole (trimChars b) then
            { s with buf := [], ttsQueue := s.ttsQueue ++ [(s.cur, trimChars b)] }
          else { s with buf := [] }
        else { s with buf := b }
  | .contRunCur =>
      if !s.sendAlive then s
      else
        let r := trimChars s.buf
        let s1 := if !r.isEmpty && !hasSub ['<', '|'] r
          then { s with ttsQueue := s.ttsQueue ++ [(s.cur, r)] } else s
        let s2 := flushPipe s1 s.cur
        { s2 with engGen := false, gen := false, sendAlive := false, buf := [] }
  | .contRunOld =>
      match s.pend with
      | none => s
      | some (n, b) =>
          let r := trimChars b
          let s1 := if !r.isEmpty && !hasSub ['<', '|'] r
            then { s with ttsQueue := s.ttsQueue ++ [(n, r)] } else s
          let s2 := flushPipe s1 n
          { s2 with gen := false, pend := none }
  | .stopDrain =>
      if !s.gen then s
      else
        { s with ttsQueue := [], textBuf := [], owner := none, sQueue := [],
                 processing := false, gen := false, engGen := false,
                 ttsBusy := false }
  | .worker =>
      if s.ttsBusy then s
      else
        match s.ttsQueue with
        | [] => s
        | (n, t) :: rest =>
            speakTokenPipe { s with ttsBusy := true, ttsQueue := rest } n t
  | .busyDone => { s with ttsBusy := false }
  | .ttsFinish => ttsProcess { s with processing := false }

/-- Claim C1 (code bug evidence): session 1 receives the token "Hel" (no
terminal punctuation), the user presses stop (`handleStop` drains and
re-enables send after `stopCompletion` resolves), the user sends a new
message (session 2), and then session 1's completion continuation runs: it
pushes session 1's residual buffer "Hel" into the shared `ttsQueue` — a
sentence of the cancelled session enqueued on the new session's speech
queue, with no session-identifier check to discard it.  (The continuation's
`finally` also clears `isGenerating` while session 2 is still
generating.) -/
theorem c1_stale_continuation_enqueues_into_new_session :
    (([PEvent.send, PEvent.tok ['H', 'e', 'l'], PEvent.stopDrain,
       PEvent.send, PEvent.contRunOld].foldl pStep pInit).ttsQueue
        = [(1, ['H', 'e', 'l'])]) ∧
    (([PEvent.send, PEvent.tok ['H', 'e', 'l'], PEvent.stopDrain,
       PEvent.send, PEvent.contRunOld].foldl pStep pInit).cur = 2) := by
  constructor <;> rfl
